import Mathlib

/-!
Shallow embedding of the veriphix client (src/veriphix/client.py) and trappified
canvas (src/veriphix/trappifiedCanvas.py), with theorems settling the frozen
claims about the natural-language specification.

Conventions used throughout:
* Python `dict[int, int]` values are embedded as association lists `List (ℕ × ℕ)`
  with Python lookup (`d.get(k, fallback)`, `d[k]`) and assignment semantics.
* Measurement angles are tracked as rationals in units of π: graphix stores
  pattern angles in units of π and `get_measurement_description` multiplies by
  `np.pi`; dividing the whole radian computation by π keeps every step exact.
* The results store is read through a total function `ℕ → ℕ` in the places where
  the source indexes `self.results[...]` directly (the source would raise
  `KeyError` on a missing node; the claims concern runs where the read nodes
  were measured).
-/

namespace Veriphix

/-- Python dictionary over integer keys and values, as an association list in
insertion order (first binding of a key is its binding; `dictSet` keeps keys
unique, so the two agree). -/
abbrev PyDict := List (ℕ × ℕ)

/-- Python `d.get(k)`: the value bound to `k`, if any. -/
def dictGetOpt (d : PyDict) (k : ℕ) : Option ℕ :=
  (d.find? (fun p => p.1 == k)).map (fun p => p.2)

/-- Python `d.get(k, fallback)`. -/
def dictGet (d : PyDict) (k fallback : ℕ) : ℕ :=
  (dictGetOpt d k).getD fallback

/-- Python `d[k] = v`: overwrite the existing binding of `k` in place, or
append a fresh binding. -/
def dictSet (d : PyDict) (k v : ℕ) : PyDict :=
  if d.any (fun p => p.1 == k) then
    d.map (fun p => if p.1 == k then (k, v) else p)
  else
    d ++ [(k, v)]

/-- Undirected adjacency as tested by the source: `(u, v) in edge_list or
(v, u) in edge_list` (client.py line 101); a networkx graph built with
`add_edges_from(edges)` has exactly this neighbour relation. -/
def adjacent (edges : List (ℕ × ℕ)) (u v : ℕ) : Bool :=
  decide ((u, v) ∈ edges ∨ (v, u) ∈ edges)

/-- Secrets flags (client.py lines 59-63). -/
structure Secrets where
  r : Bool := false
  a : Bool := false
  theta : Bool := false

/-- Secret_a (client.py lines 53-56). -/
structure Secret_a where
  a : PyDict
  a_N : PyDict
deriving DecidableEq

/-- SecretDatas (client.py lines 66-70). -/
structure SecretDatas where
  r : PyDict
  a : Secret_a
  theta : PyDict
deriving DecidableEq

/-- Inner loop of the `a_N` computation (client.py lines 98-103): starting from
`a_N_value = 0`, XOR in `a[j]` for every `j` in `node_list` adjacent to `i`.
The source indexes `a[j]` directly; when the `a` secret is enabled the dict
holds every node of `node_list`, so the 0-fallback read is the same value. -/
def neighborXor (a : PyDict) (nodeList : List ℕ) (edgeList : List (ℕ × ℕ)) (i : ℕ) : ℕ :=
  nodeList.foldl (fun acc j => if adjacent edgeList i j then acc ^^^ dictGet a j 0 else acc) 0

/-- SecretDatas.from_secrets (client.py lines 73-105). Each enabled secret dict
receives one entry per node of `node_list`; the random draws
`np.random.randint(0, 2)` and `np.random.randint(0, 8)` are threaded in as the
oracle functions `rndR`, `rndTheta`, `rndA` (numpy's upper bound is exclusive,
so their ranges are facts about the external RNG, taken as hypotheses where
needed). A disabled flag leaves the corresponding dict empty, exactly as the
source leaves `{}`; `a_N` is filled only inside `if secrets.a`, after the `a`
dict is complete. -/
def SecretDatas.from_secrets (secrets : Secrets) (nodeList : List ℕ)
    (edgeList : List (ℕ × ℕ)) (inputNodes outputNodes : List ℕ)
    (rndR rndTheta rndA : ℕ → ℕ) : SecretDatas :=
  let r : PyDict :=
    if secrets.r then
      nodeList.map (fun node => (node, if node ∉ outputNodes then rndR node else 0))
    else []
  let theta : PyDict :=
    if secrets.theta then
      nodeList.map (fun node => (node, if node ∉ outputNodes then rndTheta node else 0))
    else []
  let a : PyDict :=
    if secrets.a then
      nodeList.map (fun node => (node, if node ∉ inputNodes then rndA node else 0))
    else []
  let a_N : PyDict :=
    if secrets.a then
      nodeList.map (fun i => (i, neighborXor a nodeList edgeList i))
    else []
  ⟨r, ⟨a, a_N⟩, theta⟩

/-- XOR of `f` over a list, `foldl` form (the claims phrase parities as XORs). -/
def xorFold (f : ℕ → ℕ) (l : List ℕ) : ℕ :=
  l.foldl (fun acc n => acc ^^^ f n) 0


/-! ### Byproduct decoding (client.py lines 108-111, 319-326, 334-339) -/

/-- ByProduct (client.py lines 108-111). -/
structure ByProduct where
  z_domain : List ℕ
  x_domain : List ℕ
deriving DecidableEq

/-- Client.decode_output (client.py lines 334-339). The byproduct database is
read as a total map on output nodes (the source dict holds every output node);
`^` on Python ints restricted to bits is bitwise XOR. -/
def decode_output (secret_datas : SecretDatas) (results : ℕ → ℕ)
    (byproduct_db : ℕ → ByProduct) (node : ℕ) : ℕ × ℕ :=
  let z_decoding := ((byproduct_db node).z_domain.map results).sum % 2
  let z_decoding := z_decoding ^^^ dictGet secret_datas.r node 0
  let x_decoding := ((byproduct_db node).x_domain.map results).sum % 2
  let x_decoding := x_decoding ^^^ dictGet secret_datas.a.a node 0
  (z_decoding, x_decoding)

/-- Single-qubit correction applied to the backend
(`backend.apply_single(node=node, op=Ops.Z)` resp. `op=Ops.X`). -/
inductive AppliedOp
  | opZ (node : ℕ)
  | opX (node : ℕ)
deriving DecidableEq

/-- Client.decode_output_state (client.py lines 319-326), recorded as the list
of `apply_single` calls issued to the backend, in order: for each output node
in order, a Z correction if the z-bit is truthy, then an X correction if the
x-bit is truthy. -/
def decode_output_state (secret_datas : SecretDatas) (results : ℕ → ℕ)
    (byproduct_db : ℕ → ByProduct) (output_nodes : List ℕ) : List AppliedOp :=
  output_nodes.flatMap (fun node =>
    let d := decode_output secret_datas results byproduct_db node
    (if d.1 ≠ 0 then [AppliedOp.opZ node] else []) ++
      (if d.2 ≠ 0 then [AppliedOp.opX node] else []))

/-! ### Executor-facing measurement method (client.py lines 342-373) -/

/-- Measurement planes (graphix `Plane`). -/
inductive Plane
  | XY | YZ | XZ
deriving DecidableEq

/-- The parameters of a pattern `M` command, as stored in
`Client.measurement_db` (client.py line 171): node, plane, angle (in units of
π, the graphix convention), and the two dependency domains. -/
structure MeasureParams where
  node : ℕ
  plane : Plane
  angle : ℚ
  s_domain : List ℕ
  t_domain : List ℕ
deriving DecidableEq

/-- Result of graphix `MeasureUpdate.compute(plane, s, t, Clifford.I)` — an
external collaborator (spec §1): a multiplicative coefficient, an additive
angle term (in units of π), and the possibly-updated plane. The embedding is
parameterised over this function. -/
structure MeasureUpdateResult where
  coeff : ℚ
  add_term : ℚ
  new_plane : Plane
deriving DecidableEq

/-- The `Measurement(plane, angle)` description returned to the executor
(angle in units of π). -/
structure Measurement where
  plane : Plane
  angle : ℚ
deriving DecidableEq

/-- ClientMeasureMethod.get_measurement_description (client.py lines 346-365),
with the angle computation carried out in units of π (the source multiplies
`parameters.angle` by `np.pi` and keeps everything in radians; dividing by π
throughout gives the identical exact computation). `compute_update` stands for
the external `MeasureUpdate.compute` with `Clifford.I`. -/
def get_measurement_description
    (compute_update : Plane → Bool → Bool → MeasureUpdateResult)
    (secret_datas : SecretDatas) (results : ℕ → ℕ)
    (parameters : MeasureParams) : Measurement :=
  let r_value := dictGet secret_datas.r parameters.node 0
  let theta_value := dictGet secret_datas.theta parameters.node 0
  let a_value := dictGet secret_datas.a.a parameters.node 0
  let a_N_value := dictGet secret_datas.a.a_N parameters.node 0
  let s_signal := (parameters.s_domain.map results).sum
  let t_signal := (parameters.t_domain.map results).sum
  let measure_update :=
    compute_update parameters.plane (s_signal % 2 == 1) (t_signal % 2 == 1)
  let angle := parameters.angle
  let angle := angle * measure_update.coeff + measure_update.add_term
  let angle := (-1 : ℚ) ^ a_value * angle + (theta_value : ℚ) * (1 / 4)
    + ((r_value : ℚ) + (a_N_value : ℚ))
  ⟨measure_update.new_plane, angle⟩

/-- Python exceptions raised by the embedded code. -/
inductive PyError
  | valueError (msg : String)
  | typeError (msg : String)
deriving DecidableEq

/-- ClientMeasureMethod.get_measure_result (client.py lines 367-368):
unconditionally `raise ValueError(...)`. This raise is the code's realisation
of the spec's `ForbiddenQuery` error kind (spec §7). -/
def get_measure_result (node : ℕ) : Except PyError Bool :=
  .error (.valueError "Server cannot have access to measurement results")

/-- ClientMeasureMethod.set_measure_result (client.py lines 370-373): if the
`r` secret dict is truthy (non-empty), XOR `r[node]` into the raw result — a
direct index, raising `KeyError` (modelled as `none`) when the node has no `r`
entry — then write `results[node] = result`. -/
def set_measure_result (secret_r : PyDict) (results : PyDict)
    (node result : ℕ) : Option PyDict :=
  if secret_r.isEmpty then some (dictSet results node result)
  else (dictGetOpt secret_r node).map (fun rv => dictSet results node (result ^^^ rv))

/-! ### Patterns and the clean pattern (client.py lines 128-153, 185-186) -/

/-- Pattern commands (graphix `CommandKind`): preparation `N`, entanglement
`E`, full measurement `M` (plane, angle in units of π, dependency domains),
byproduct corrections `X` and `Z`, Clifford `C`, signal shift `S`, and the
parameter-free `BaseM` produced by `remove_flow`. -/
inductive Command
  | N (node : ℕ)
  | E (u v : ℕ)
  | M (node : ℕ) (plane : Plane) (angle : ℚ) (s_domain t_domain : List ℕ)
  | X (node : ℕ) (domain : List ℕ)
  | Z (node : ℕ) (domain : List ℕ)
  | C (node : ℕ) (cliff : ℕ)
  | S (node : ℕ) (domain : List ℕ)
  | BaseM (node : ℕ)
deriving DecidableEq

/-- A graphix `Pattern`: declared input nodes plus the command sequence
(iterating a pattern yields the sequence; input nodes carry no `N` command). -/
structure Pattern where
  input_nodes : List ℕ
  seq : List Command
deriving DecidableEq

/-- remove_flow (client.py lines 128-140): start a fresh pattern on the same
input nodes; drop every `X`/`Z` byproduct command; replace every `M` by
`BaseM(node)`; keep every other command as is. -/
def remove_flow (pattern : Pattern) : Pattern :=
  { input_nodes := pattern.input_nodes,
    seq := pattern.seq.filterMap (fun cmd =>
      match cmd with
      | .X _ _ => none
      | .Z _ _ => none
      | .M node _ _ _ _ => some (.BaseM node)
      | c => some c) }

/-- prepared_nodes_as_input_nodes (client.py lines 143-153): every `N` command
is removed from the sequence and its node appended (in sequence order) to the
input-node list; all other commands are kept. -/
def prepared_nodes_as_input_nodes (pattern : Pattern) : Pattern :=
  { input_nodes := pattern.input_nodes ++
      pattern.seq.filterMap (fun cmd =>
        match cmd with
        | .N node => some node
        | _ => none),
    seq := pattern.seq.filter (fun cmd =>
      match cmd with
      | .N _ => false
      | _ => true) }

/-- Client.clean_pattern (client.py lines 185-186): the pattern actually
executed by both delegation paths. -/
def clean_pattern (pattern : Pattern) : Pattern :=
  prepared_nodes_as_input_nodes (remove_flow pattern)

/-! ### The results store across a delegated run
(client.py lines 278-308 and 310-317) -/

/-- Results store a delegation run starts from. Neither
`Client.delegate_pattern` (client.py lines 310-317) nor
`Client.delegate_test_run` (lines 278-308) performs any operation on
`Client.results` before running the simulator: the store the run starts from
is exactly the client's current store (itself seeded from `pattern.results` at
construction, line 166). -/
def results_at_run_start (results : PyDict) : PyDict := results

/-- Evolution of `Client.results` across one delegated run: the simulator
reports each measured node through
`ClientMeasureMethod.set_measure_result`, whose writes are folded, in
measurement order, into the store the run started from. `writes` lists the
raw `(node, result)` reports of the run. -/
def run_results (secret_r : PyDict) (results : PyDict)
    (writes : List (ℕ × ℕ)) : Option PyDict :=
  writes.foldl
    (fun acc w => acc.bind (fun d => set_measure_result secret_r d w.1 w.2))
    (some (results_at_run_start results))

/-! ### Trappified canvas: stabilizer merging
(trappifiedCanvas.py lines 47-122) -/

/-- One position of a stim Pauli string. -/
inductive PauliLetter
  | I | X | Y | Z
deriving DecidableEq

/-- A stim `PauliString`: a global sign (±1 here; the canvas only ever
produces real signs) and one letter per qubit. All strings handled by one
canvas have the same length `len(graph.nodes)`. -/
structure PauliString where
  sign : Int
  letters : List PauliLetter
deriving DecidableEq

/-- Default used for out-of-range list indexing in the loop model (the source
never indexes out of range on the executions the claims concern). -/
def default_pauli : PauliString := ⟨1, []⟩

/-- One of the three subset checks of `common_eigenstate`
(trappifiedCanvas.py lines 51-59): every position where `s1` carries the
letter `p` must carry `p` or `I` in `s2` (that is the meaning of
`set(s1.pauli_indices(p)) ⊆ set(s2.pauli_indices(p)) ∪ set(s2.pauli_indices("I"))`
for equal-length strings). -/
def letter_match (s1 s2 : PauliString) (p : PauliLetter) : Bool :=
  (List.zip s1.letters s2.letters).all
    (fun q => !(q.1 == p) || (q.2 == p || q.2 == PauliLetter.I))

/-- TrappifiedCanvas.common_eigenstate (trappifiedCanvas.py lines 47-60). -/
def common_eigenstate (s1 s2 : PauliString) : Bool :=
  letter_match s1 s2 .X && letter_match s1 s2 .Y && letter_match s1 s2 .Z

/-- TrappifiedCanvas.merge (trappifiedCanvas.py lines 62-67): start from
`stabilizer_2.sign * stabilizer_1` (scalar multiplication multiplies the
sign), then overwrite every non-identity position of `stabilizer_2` with its
letter. -/
def merge (s1 s2 : PauliString) : PauliString :=
  { sign := s2.sign * s1.sign,
    letters := (List.zip s1.letters s2.letters).map
      (fun q => if q.2 == PauliLetter.I then q.1 else q.2) }

/-- The inner `while j < len(pauli_list)` scan of `merge_pauli_list`
(trappifiedCanvas.py lines 100-117): the first index `j > i` with
`common_eigenstate(pauli_list[i], pauli_list[j])`, if any. -/
def find_compat (l : List PauliString) (i : ℕ) : Option ℕ :=
  ((List.range l.length).filter
    (fun j => decide (i < j) &&
      common_eigenstate (l.getD i default_pauli) (l.getD j default_pauli))).head?

/-- The middle `while i < len(pauli_list) - 1` loop of `merge_pauli_list`
(trappifiedCanvas.py lines 97-120), with its `merged` flag. A successful scan
replaces element `i` by the merge, deletes element `j`, sets `merged` and
rescans from the same `i`; a failed scan advances `i` only while `merged` is
still false — once `merged` is set, a failed scan repeats the identical state,
which is the source's infinite loop. `fuel` bounds the number of iterations;
`none` models non-termination (the fuel budgets below exceed every
terminating execution's iteration count, since each iteration either merges,
which strictly shrinks the list, or advances `i`, or repeats the state
forever). -/
def middle_loop : ℕ → ℕ → Bool → List PauliString → Option (List PauliString × Bool)
  | 0, i, merged, l => if i < l.length - 1 then none else some (l, merged)
  | fuel + 1, i, merged, l =>
    if i < l.length - 1 then
      match find_compat l i with
      | some j =>
        middle_loop fuel i true
          ((l.set i (merge (l.getD i default_pauli) (l.getD j default_pauli))).eraseIdx j)
      | none =>
        if merged then middle_loop fuel i merged l
        else middle_loop fuel (i + 1) merged l
    else some (l, merged)

/-- Iteration budget for one middle-loop pass. -/
def middle_fuel (l : List PauliString) : ℕ := (l.length + 1) * (l.length + 1)

/-- The outer `while merged` loop of `merge_pauli_list` (trappifiedCanvas.py
lines 91-120): `merged` starts true, each pass resets it and runs the middle
loop from `i = 0`; the loop exits when a pass performs no merge. -/
def outer_loop : ℕ → List PauliString → Option (List PauliString)
  | 0, _ => none
  | fuel + 1, l =>
    match middle_loop (middle_fuel l) 0 false l with
    | none => none
    | some (l2, merged) => if merged then outer_loop fuel l2 else some l2

/-- TrappifiedCanvas.merge_pauli_list (trappifiedCanvas.py lines 86-122):
run the merging loops, then return `pauli_list[0]` (`none` additionally
covers indexing an empty list). The function body contains no `raise`
statement of any kind. -/
def merge_pauli_list (l : List PauliString) : Option PauliString :=
  (outer_loop (l.length + 1) l).bind List.head?

/-! ### Trappified canvas: coins
(trappifiedCanvas.py lines 124-130, 139-151) -/

/-- TrappifiedCanvas.trap_qubits (trappifiedCanvas.py lines 124-126):
`[node for trap in traps_list for node in trap]`. -/
def trap_qubits (traps_list : List (List ℕ)) : List ℕ := traps_list.flatten

/-- Neighbours of `v` in the networkx graph built from `nodes` and `edges`
(TrappifiedCanvas holds `graph: nx.Graph`; `graph.neighbors(node)` is the set
of nodes sharing an edge with `node`, here listed in node-list order — every
use below is order-insensitive). -/
def neighbors (nodes : List ℕ) (edges : List (ℕ × ℕ)) (v : ℕ) : List ℕ :=
  nodes.filter (fun u => adjacent edges v u)

/-- TrappifiedCanvas.generate_coins_dummies (trappifiedCanvas.py lines
139-146): every non-trap node draws `random.randint(0, 1)` (threaded in as the
oracle `rnd`; the stdlib bound is inclusive, so `rnd` ranges over bits), every
trap node gets 0. Coins form a dict keyed by the graph's nodes; it is embedded
as a total function whose values outside the graph are never read. -/
def generate_coins_dummies (tq : List ℕ) (rnd : ℕ → ℕ) : ℕ → ℕ :=
  fun node => if node ∈ tq then 0 else rnd node

/-- The parity `sum(coins[n] for n in self.graph.neighbors(node)) % 2`
(trappifiedCanvas.py line 150). -/
def parity_of_neighbors (nodes : List ℕ) (edges : List (ℕ × ℕ))
    (coins : ℕ → ℕ) (v : ℕ) : ℕ :=
  ((neighbors nodes edges v).map coins).sum % 2

/-- TrappifiedCanvas.generate_coins_trap_qubits (trappifiedCanvas.py lines
148-151): walk `trap_qubits` in order, overwriting each trap node's coin with
the parity of its neighbours' current coins. -/
def generate_coins_trap_qubits (nodes : List ℕ) (edges : List (ℕ × ℕ))
    (tq : List ℕ) (coins : ℕ → ℕ) : ℕ → ℕ :=
  tq.foldl
    (fun cs node => Function.update cs node (parity_of_neighbors nodes edges cs node))
    coins

/-- The coins of a built TrappifiedCanvas (trappifiedCanvas.py lines 43-44):
dummy coins first, then the trap-qubit pass. -/
def canvas_coins (nodes : List ℕ) (edges : List (ℕ × ℕ))
    (traps_list : List (List ℕ)) (rnd : ℕ → ℕ) : ℕ → ℕ :=
  generate_coins_trap_qubits nodes edges (trap_qubits traps_list)
    (generate_coins_dummies (trap_qubits traps_list) rnd)

/-! ### Test runs (client.py lines 232-308) -/

/-- The traps of the TrappifiedCanvas that `Client.create_test_runs`
(client.py lines 232-276) builds for one color class: one single-qubit trap
per node of that color, in node order (`sorted(graph.nodes)` is embedded as
the given node list). `coloring` is the external coloring oracle
(`nx.coloring.greedy_color`); any proper coloring is accepted (spec §6). -/
def create_test_run_traps (nodes : List ℕ) (coloring : ℕ → ℕ) (color : ℕ) :
    List (List ℕ) :=
  (nodes.filter (fun v => coloring v == color)).map (fun v => [v])

/-- The trap-outcome extraction of `Client.delegate_test_run` (client.py lines
300-304): for each trap, the sum over the recorded results of its nodes,
mod 2. -/
def trap_outcomes (results : ℕ → ℕ) (traps_list : List (List ℕ)) : List ℕ :=
  traps_list.map (fun trap => (trap.map results).sum % 2)

/-- Modelled from the spec: the honest, noiseless executor of a test run. The
executor (the graphix backend and simulator) is an external collaborator of
this repository (spec §1 "Out of scope", §6 "Backend capability"), so its
honest behaviour is not in src/. Per spec §4.4 the canvas prepares each node
in the eigenstate of its stabilizer letter with eigenvalue `(-1)^coin(node)`
(trap nodes carry X, their neighbours Z), and a test run measures every node
in the parameter-free basis; on the resulting graph state the measurement of
a trap qubit is deterministic: its recorded logical outcome is
`coin(node) XOR (parity of its neighbours' coins)` (spec §4.4 step 3, §8,
glossary "Trap"/"Coin"). Outcomes of non-trap nodes are unconstrained random
bits. -/
def honest_test_run_results (nodes : List ℕ) (edges : List (ℕ × ℕ))
    (coins : ℕ → ℕ) (results : ℕ → ℕ) (tq : List ℕ) : Prop :=
  ∀ v ∈ tq, results v = (coins v + ((neighbors nodes edges v).map coins).sum) % 2

/-! ### get_secrets_size (client.py lines 328-332) -/

/-- Method names defined on the `SecretDatas` class: `r`, `a`, `theta` are
data fields (client.py lines 66-70); the `@dataclass` decorator generates
`__init__`, `__repr__` and `__eq__`; the class body adds the static method
`from_secrets` (lines 73-105). Neither `__iter__` nor `__getitem__` is
defined. -/
def secretDatasMethods : List String :=
  ["__init__", "__repr__", "__eq__", "from_secrets"]

/-- Python semantics of entering `for x in obj:`: `iter(obj)` succeeds iff the
object's class defines `__iter__` or (legacy sequence protocol) `__getitem__`;
otherwise it raises `TypeError`. -/
def py_for_setup (methods : List String) : Except PyError Unit :=
  if "__iter__" ∈ methods || "__getitem__" ∈ methods then .ok ()
  else .error (.typeError "argument of type SecretDatas is not iterable")

/-- Client.get_secrets_size (client.py lines 328-332): the body enters
`for secret in self.secret_datas:` before anything is returned; the loop body
(which would also need `self.secret_datas[secret]`) is only reachable if the
iteration setup succeeds. -/
def get_secrets_size (secret_datas : SecretDatas) :
    Except PyError (List (String × ℕ)) :=
  match py_for_setup secretDatasMethods with
  | .error e => .error e
  | .ok _ => .ok []

/-! ## Helper lemmas -/

/-- Looking a key up in a dict built by tabulating `f` over a node list. -/
theorem dictGet_map_tabulate (l : List ℕ) (f : ℕ → ℕ) (k d : ℕ) :
    dictGet (l.map (fun n => (n, f n))) k d = if k ∈ l then f k else d := by
  induction l with
  | nil => simp [dictGet, dictGetOpt]
  | cons x xs ih =>
    by_cases hx : x = k
    · subst hx
      simp [dictGet, dictGetOpt, List.find?]
    · have hx2 : (x == k) = false := by simpa using hx
      simp only [List.map_cons, dictGet, dictGetOpt, List.find?, hx2]
      rw [show ((xs.map (fun n => (n, f n))).find? (fun p => p.1 == k)).map (fun p => p.2) =
          dictGetOpt (xs.map (fun n => (n, f n))) k from rfl]
      rw [show ((dictGetOpt (xs.map (fun n => (n, f n))) k).getD d) =
          dictGet (xs.map (fun n => (n, f n))) k d from rfl]
      rw [ih]
      simp [List.mem_cons, hx, Ne.symm hx]

/-- Folding with a guard `if p x then step else skip` is folding over the
filtered list. -/
theorem foldl_if_eq_foldl_filter {α : Type} (l : List α) (p : α → Bool)
    (g : ℕ → α → ℕ) (init : ℕ) :
    l.foldl (fun acc x => if p x then g acc x else acc) init =
      (l.filter p).foldl g init := by
  induction l generalizing init with
  | nil => rfl
  | cons x xs ih =>
    by_cases hx : p x
    · simp [List.filter_cons, hx, ih]
    · simp [List.filter_cons, hx, ih]

theorem xor_bits_eq_add_mod (a b : ℕ) (ha : a ≤ 1) (hb : b ≤ 1) :
    a ^^^ b = (a + b) % 2 := by
  interval_cases a <;> interval_cases b <;> rfl

theorem xor_bits_le_one (a b : ℕ) (ha : a ≤ 1) (hb : b ≤ 1) : a ^^^ b ≤ 1 := by
  interval_cases a <;> interval_cases b <;> decide

theorem xorFold_aux (f : ℕ → ℕ) (l : List ℕ) :
    ∀ acc : ℕ, acc ≤ 1 → (∀ x ∈ l, f x ≤ 1) →
      l.foldl (fun acc n => acc ^^^ f n) acc = (acc + (l.map f).sum) % 2 := by
  induction l with
  | nil =>
    intro acc hacc _
    simp [Nat.mod_eq_of_lt (Nat.lt_succ_of_le hacc)]
  | cons x xs ih =>
    intro acc hacc hl
    have hfx : f x ≤ 1 := hl x (List.mem_cons_self x xs)
    have hstep : acc ^^^ f x ≤ 1 := xor_bits_le_one _ _ hacc hfx
    have := ih (acc ^^^ f x) hstep (fun y hy => hl y (List.mem_cons_of_mem x hy))
    simp only [List.foldl_cons, this, List.map_cons, List.sum_cons]
    rw [xor_bits_eq_add_mod acc (f x) hacc hfx]
    rw [Nat.mod_add_mod]
    ring_nf

/-- On bit-valued entries, the XOR fold is the sum mod 2 (the form computed by
the source via `sum(...) % 2`). -/
theorem xorFold_eq_sum_mod (f : ℕ → ℕ) (l : List ℕ) (h : ∀ x ∈ l, f x ≤ 1) :
    xorFold f l = (l.map f).sum % 2 := by
  simpa [xorFold] using xorFold_aux f l 0 (by decide) h

/-! ## Claim C9 -/

/-- Claim C9: for every node, calling `get_measure_result` on the
executor-facing measurement path always fails with the error realising
`ForbiddenQuery` (the source's
`ValueError("Server cannot have access to measurement results")`) and never
returns a measurement result. -/
theorem C9_get_measure_result_always_fails :
    ∀ node : ℕ,
      get_measure_result node =
        .error (.valueError "Server cannot have access to measurement results") ∧
      ∀ b : Bool, get_measure_result node ≠ .ok b := by
  intro node
  refine ⟨rfl, ?_⟩
  intro b h
  exact Except.noConfusion h

/-! ## Claim C10 -/

/-- Claim C10: for every `Client` instance, calling `get_secrets_size` always
raises a `TypeError` before returning: it iterates over the `SecretDatas`
dataclass, which defines no iteration, so the advertised per-secret size map
can never be produced. -/
theorem C10_get_secrets_size_always_type_error :
    ∀ sd : SecretDatas,
      get_secrets_size sd =
        .error (.typeError "argument of type SecretDatas is not iterable") ∧
      ∀ out, get_secrets_size sd ≠ .ok out := by
  intro sd
  refine ⟨rfl, ?_⟩
  intro out h
  rw [show get_secrets_size sd =
      .error (.typeError "argument of type SecretDatas is not iterable") from rfl] at h
  exact Except.noConfusion h

/-! ## Claim C4 -/

/-- Claim C4: for every `Measure` command, the measurement description sent to
the executor carries the angle
`(-1)^a(node) · corrected_angle + theta(node)·π/4 + π·(r(node) + a_N(node))`
(here in units of π), where `corrected_angle` is the pattern's base angle
transformed by the plane-dependent adaptive update determined by
`s` = parity (XOR) of recorded results over `s_domain` and `t` = parity of
recorded results over `t_domain`, together with the possibly-updated plane.
`compute_update` is the external graphix `MeasureUpdate.compute`; recorded
results are bits. -/
theorem C4_measurement_description_angle
    (compute_update : Plane → Bool → Bool → MeasureUpdateResult)
    (secret_datas : SecretDatas) (results : ℕ → ℕ) (parameters : MeasureParams)
    (hbits : ∀ n, results n ≤ 1) :
    get_measurement_description compute_update secret_datas results parameters =
      { plane := (compute_update parameters.plane
            (xorFold results parameters.s_domain == 1)
            (xorFold results parameters.t_domain == 1)).new_plane,
        angle :=
          (-1 : ℚ) ^ (dictGet secret_datas.a.a parameters.node 0) *
              (parameters.angle *
                  (compute_update parameters.plane
                    (xorFold results parameters.s_domain == 1)
                    (xorFold results parameters.t_domain == 1)).coeff +
                (compute_update parameters.plane
                  (xorFold results parameters.s_domain == 1)
                  (xorFold results parameters.t_domain == 1)).add_term) +
            (dictGet secret_datas.theta parameters.node 0 : ℚ) * (1 / 4) +
            ((dictGet secret_datas.r parameters.node 0 : ℚ) +
              (dictGet secret_datas.a.a_N parameters.node 0 : ℚ)) } := by
  have hs := xorFold_eq_sum_mod results parameters.s_domain (fun x _ => hbits x)
  have ht := xorFold_eq_sum_mod results parameters.t_domain (fun x _ => hbits x)
  simp only [get_measurement_description, hs, ht]

/-- Witness for C4: a concrete evaluation through the theorem. -/
theorem C4_witness :
    (∀ n : ℕ, (fun _ : ℕ => 0) n ≤ 1) ∧
    get_measurement_description (fun p _ _ => ⟨1, 0, p⟩) ⟨[], ⟨[], []⟩, []⟩
        (fun _ => 0) ⟨0, Plane.XY, 1 / 2, [], []⟩ =
      ⟨Plane.XY, 1 / 2⟩ := by
  refine ⟨fun n => Nat.zero_le 1, ?_⟩
  rw [C4_measurement_description_angle (fun p _ _ => ⟨1, 0, p⟩) ⟨[], ⟨[], []⟩, []⟩
    (fun _ => 0) ⟨0, Plane.XY, 1 / 2, [], []⟩ (fun n => Nat.zero_le 1)]
  norm_num [xorFold, dictGet, dictGetOpt]

/-! ## Claim C6 -/

/-- Claim C6: for every output node, decoding returns
`z_bit = (XOR of recorded results over that node's z_domain) XOR r(node)` and
`x_bit = (XOR of recorded results over that node's x_domain) XOR a(node)`;
and the decoder then applies a Z correction to the backend iff `z_bit = 1` and
an X correction iff `x_bit = 1`, in that fixed order (Z before X). Recorded
results and the `r`/`a` secrets are bits. -/
theorem C6_decode_output_and_corrections
    (secret_datas : SecretDatas) (results : ℕ → ℕ)
    (byproduct_db : ℕ → ByProduct) (output_nodes : List ℕ)
    (hbits : ∀ n, results n ≤ 1)
    (hr : ∀ n, dictGet secret_datas.r n 0 ≤ 1)
    (ha : ∀ n, dictGet secret_datas.a.a n 0 ≤ 1) :
    (∀ node,
      decode_output secret_datas results byproduct_db node =
        (xorFold results (byproduct_db node).z_domain ^^^ dictGet secret_datas.r node 0,
         xorFold results (byproduct_db node).x_domain ^^^ dictGet secret_datas.a.a node 0)) ∧
    decode_output_state secret_datas results byproduct_db output_nodes =
      output_nodes.flatMap (fun node =>
        (if xorFold results (byproduct_db node).z_domain ^^^
              dictGet secret_datas.r node 0 = 1
         then [AppliedOp.opZ node] else []) ++
        (if xorFold results (byproduct_db node).x_domain ^^^
              dictGet secret_datas.a.a node 0 = 1
         then [AppliedOp.opX node] else [])) := by
  have hdec : ∀ node,
      decode_output secret_datas results byproduct_db node =
        (xorFold results (byproduct_db node).z_domain ^^^ dictGet secret_datas.r node 0,
         xorFold results (byproduct_db node).x_domain ^^^ dictGet secret_datas.a.a node 0) := by
    intro node
    have hz := xorFold_eq_sum_mod results (byproduct_db node).z_domain (fun x _ => hbits x)
    have hx := xorFold_eq_sum_mod results (byproduct_db node).x_domain (fun x _ => hbits x)
    simp only [decode_output, hz, hx]
  refine ⟨hdec, ?_⟩
  unfold decode_output_state
  congr 1
  funext node
  rw [hdec node]
  have hzfold : xorFold results (byproduct_db node).z_domain ≤ 1 := by
    rw [xorFold_eq_sum_mod results _ (fun x _ => hbits x)]
    exact Nat.le_of_lt_succ (Nat.mod_lt _ (by norm_num))
  have hxfold : xorFold results (byproduct_db node).x_domain ≤ 1 := by
    rw [xorFold_eq_sum_mod results _ (fun x _ => hbits x)]
    exact Nat.le_of_lt_succ (Nat.mod_lt _ (by norm_num))
  have hz1 : xorFold results (byproduct_db node).z_domain ^^^
      dictGet secret_datas.r node 0 ≤ 1 := xor_bits_le_one _ _ hzfold (hr node)
  have hx1 : xorFold results (byproduct_db node).x_domain ^^^
      dictGet secret_datas.a.a node 0 ≤ 1 := xor_bits_le_one _ _ hxfold (ha node)
  have ez : (xorFold results (byproduct_db node).z_domain ^^^
      dictGet secret_datas.r node 0 ≠ 0) =
      (xorFold results (byproduct_db node).z_domain ^^^
      dictGet secret_datas.r node 0 = 1) := by
    apply propext
    omega
  have ex : (xorFold results (byproduct_db node).x_domain ^^^
      dictGet secret_datas.a.a node 0 ≠ 0) =
      (xorFold results (byproduct_db node).x_domain ^^^
      dictGet secret_datas.a.a node 0 = 1) := by
    apply propext
    omega
  simp only [ez, ex]

/-- Witness for C6: a concrete evaluation through the theorem. -/
theorem C6_witness :
    (∀ n : ℕ, (fun _ : ℕ => 1) n ≤ 1) ∧
    decode_output_state ⟨[], ⟨[], []⟩, []⟩ (fun _ => 1) (fun _ => ⟨[0], []⟩) [1] =
      [AppliedOp.opZ 1] := by
  have h := C6_decode_output_and_corrections ⟨[], ⟨[], []⟩, []⟩ (fun _ => 1)
    (fun _ => ⟨[0], []⟩) [1] (fun n => le_refl 1)
    (fun n => by simp [dictGet, dictGetOpt]) (fun n => by simp [dictGet, dictGetOpt])
  refine ⟨fun n => le_refl 1, ?_⟩
  rw [h.2]
  decide

/-! ## Claim C8 -/

/-- Claim C8: for every graph with given input and output node sets, secret
generation satisfies: when enabled, `r(node) ∈ {0,1}` (`≤ 1`) with `r = 0` on
every output node, `theta(node) ∈ {0..7}` with `theta = 0` on every output
node, `a(node) ∈ {0,1}` with `a = 0` on every input node, and `a_N(i)` equals
the XOR of `a(j)` over the graph neighbours `j` of `i` (the `a_N` formula
reads the completed `a` dict, matching "computed only after all `a` values
exist"); when a flag is disabled, the corresponding map assigns 0 to every
node (the empty dict under the code's own `get(node, 0)` read convention).
The hypotheses are the ranges of the external numpy draws
(`randint(0, 2)` and `randint(0, 8)`, upper bound exclusive). -/
theorem C8_from_secrets_shape
    (nodeList : List ℕ) (edgeList : List (ℕ × ℕ))
    (inputNodes outputNodes : List ℕ) (rndR rndTheta rndA : ℕ → ℕ)
    (hR : ∀ n, rndR n ≤ 1) (hT : ∀ n, rndTheta n ≤ 7) (hA : ∀ n, rndA n ≤ 1) :
    ∀ secrets : Secrets,
      (secrets.r = true → ∀ n ∈ nodeList,
        dictGet (SecretDatas.from_secrets secrets nodeList edgeList inputNodes
          outputNodes rndR rndTheta rndA).r n 0 ≤ 1 ∧
        (n ∈ outputNodes →
          dictGet (SecretDatas.from_secrets secrets nodeList edgeList inputNodes
            outputNodes rndR rndTheta rndA).r n 0 = 0)) ∧
      (secrets.r = false → ∀ n,
        dictGet (SecretDatas.from_secrets secrets nodeList edgeList inputNodes
          outputNodes rndR rndTheta rndA).r n 0 = 0) ∧
      (secrets.theta = true → ∀ n ∈ nodeList,
        dictGet (SecretDatas.from_secrets secrets nodeList edgeList inputNodes
          outputNodes rndR rndTheta rndA).theta n 0 ≤ 7 ∧
        (n ∈ outputNodes →
          dictGet (SecretDatas.from_secrets secrets nodeList edgeList inputNodes
            outputNodes rndR rndTheta rndA).theta n 0 = 0)) ∧
      (secrets.theta = false → ∀ n,
        dictGet (SecretDatas.from_secrets secrets nodeList edgeList inputNodes
          outputNodes rndR rndTheta rndA).theta n 0 = 0) ∧
      (secrets.a = true → ∀ n ∈ nodeList,
        dictGet (SecretDatas.from_secrets secrets nodeList edgeList inputNodes
          outputNodes rndR rndTheta rndA).a.a n 0 ≤ 1 ∧
        (n ∈ inputNodes →
          dictGet (SecretDatas.from_secrets secrets nodeList edgeList inputNodes
            outputNodes rndR rndTheta rndA).a.a n 0 = 0)) ∧
      (secrets.a = false → ∀ n,
        dictGet (SecretDatas.from_secrets secrets nodeList edgeList inputNodes
          outputNodes rndR rndTheta rndA).a.a n 0 = 0) ∧
      (secrets.a = true → ∀ i ∈ nodeList,
        dictGet (SecretDatas.from_secrets secrets nodeList edgeList inputNodes
          outputNodes rndR rndTheta rndA).a.a_N i 0 =
        xorFold
          (fun j => dictGet (SecretDatas.from_secrets secrets nodeList edgeList
            inputNodes outputNodes rndR rndTheta rndA).a.a j 0)
          (nodeList.filter (fun j => adjacent edgeList i j))) ∧
      (secrets.a = false → ∀ i,
        dictGet (SecretDatas.from_secrets secrets nodeList edgeList inputNodes
          outputNodes rndR rndTheta rndA).a.a_N i 0 = 0) := by
  intro secrets
  refine ⟨?_, ?_, ?_, ?_, ?_, ?_, ?_, ?_⟩
  · intro hflag n hn
    simp only [SecretDatas.from_secrets, hflag, if_true]
    rw [dictGet_map_tabulate, if_pos hn]
    constructor
    · by_cases ho : n ∈ outputNodes <;> simp [ho, hR n]
    · intro ho
      simp [ho]
  · intro hflag n
    simp [SecretDatas.from_secrets, hflag, dictGet, dictGetOpt]
  · intro hflag n hn
    simp only [SecretDatas.from_secrets, hflag, if_true]
    rw [dictGet_map_tabulate, if_pos hn]
    constructor
    · by_cases ho : n ∈ outputNodes <;> simp [ho, hT n]
    · intro ho
      simp [ho]
  · intro hflag n
    simp [SecretDatas.from_secrets, hflag, dictGet, dictGetOpt]
  · intro hflag n hn
    simp only [SecretDatas.from_secrets, hflag, if_true]
    rw [dictGet_map_tabulate, if_pos hn]
    constructor
    · by_cases ho : n ∈ inputNodes <;> simp [ho, hA n]
    · intro ho
      simp [ho]
  · intro hflag n
    simp [SecretDatas.from_secrets, hflag, dictGet, dictGetOpt]
  · intro hflag i hi
    simp only [SecretDatas.from_secrets, hflag, if_true]
    rw [dictGet_map_tabulate, if_pos hi]
    rw [show neighborXor
        (nodeList.map (fun node => (node, if node ∉ inputNodes then rndA node else 0)))
        nodeList edgeList i =
      nodeList.foldl (fun acc j => if adjacent edgeList i j then
        acc ^^^ dictGet
          (nodeList.map (fun node => (node, if node ∉ inputNodes then rndA node else 0)))
          j 0 else acc) 0 from rfl]
    rw [foldl_if_eq_foldl_filter]
    rfl
  · intro hflag i
    simp [SecretDatas.from_secrets, hflag, dictGet, dictGetOpt]

/-- Witness for C8: a concrete graph evaluated through the theorem. -/
theorem C8_witness :
    (∀ n : ℕ, (fun _ : ℕ => 1) n ≤ 1) ∧ (∀ n : ℕ, (fun _ : ℕ => 5) n ≤ 7) ∧
    dictGet (SecretDatas.from_secrets ⟨true, true, true⟩ [0, 1, 2] [(0, 1), (1, 2)]
        [0] [2] (fun _ => 1) (fun _ => 5) (fun _ => 1)).a.a_N 1 0 =
      xorFold
        (fun j => dictGet (SecretDatas.from_secrets ⟨true, true, true⟩ [0, 1, 2]
          [(0, 1), (1, 2)] [0] [2] (fun _ => 1) (fun _ => 5) (fun _ => 1)).a.a j 0)
        (([0, 1, 2] : List ℕ).filter (fun j => adjacent [(0, 1), (1, 2)] 1 j)) := by
  refine ⟨fun n => le_refl 1, fun n => by norm_num, ?_⟩
  have h := C8_from_secrets_shape [0, 1, 2] [(0, 1), (1, 2)] [0] [2]
    (fun _ => 1) (fun _ => 5) (fun _ => 1)
    (fun n => le_refl 1) (fun n => by norm_num) (fun n => le_refl 1) ⟨true, true, true⟩
  exact h.2.2.2.2.2.2.1 rfl 1 (by decide)

/-! ## Claim C5 -/

/-- The per-command effect of the whole clean-pattern construction
(`remove_flow` then `prepared_nodes_as_input_nodes`): `X`/`Z` byproduct
commands and `N` preparation commands disappear from the sequence, `M`
commands are reduced to `BaseM`, everything else is kept unchanged. -/
def clean_command (cmd : Command) : Option Command :=
  match cmd with
  | .X _ _ => none
  | .Z _ _ => none
  | .N _ => none
  | .M node _ _ _ _ => some (.BaseM node)
  | c => some c

theorem clean_pattern_seq_eq (l : List Command) :
    (l.filterMap (fun cmd =>
      match cmd with
      | Command.X _ _ => none
      | Command.Z _ _ => none
      | Command.M node _ _ _ _ => some (Command.BaseM node)
      | c => some c)).filter (fun cmd =>
        match cmd with
        | Command.N _ => false
        | _ => true) = l.filterMap clean_command := by
  induction l with
  | nil => rfl
  | cons c rest ih =>
    cases c <;> simp [List.filterMap_cons, List.filter_cons, clean_command, ih]

theorem clean_pattern_inputs_eq (l : List Command) :
    (l.filterMap (fun cmd =>
      match cmd with
      | Command.X _ _ => none
      | Command.Z _ _ => none
      | Command.M node _ _ _ _ => some (Command.BaseM node)
      | c => some c)).filterMap (fun cmd =>
        match cmd with
        | Command.N node => some node
        | _ => none) = l.filterMap (fun cmd =>
        match cmd with
        | Command.N node => some node
        | _ => none) := by
  induction l with
  | nil => rfl
  | cons c rest ih =>
    cases c <;> simp [List.filterMap_cons, ih]

/-- Counterexample to claim C5: the clean pattern executed by the delegation
paths is `prepared_nodes_as_input_nodes(remove_flow(pattern))`
(client.py lines 185-186), and the second pass deletes every `N` preparation
command from the sequence. `N 5` is neither an X nor a Z byproduct command
nor a measurement, yet it does not appear (unchanged or at all) in the
executed clean pattern of `Pattern([], [N 5, E 5 0])`. -/
theorem C5_counterexample :
    Command.N 5 ∈ (Pattern.mk [] [Command.N 5, Command.E 5 0]).seq ∧
    (∀ n d, Command.N 5 ≠ Command.X n d) ∧
    (∀ n d, Command.N 5 ≠ Command.Z n d) ∧
    (∀ n pl a sd td, Command.N 5 ≠ Command.M n pl a sd td) ∧
    Command.N 5 ∉ (clean_pattern (Pattern.mk [] [Command.N 5, Command.E 5 0])).seq ∧
    (clean_pattern (Pattern.mk [] [Command.N 5, Command.E 5 0])).seq =
      [Command.E 5 0] := by
  refine ⟨by decide, fun n d => by simp, fun n d => by simp,
    fun n pl a sd td => by simp, by decide, by decide⟩

/-- Claim C5 as amended: for every pattern, the clean pattern executed by both
delegation paths contains no X or Z byproduct-correction command and no N
preparation command; every measurement command of the original pattern
appears reduced to a bare `BaseM` carrying only the node id; every N command
is removed from the sequence and its node appended, in sequence order, to the
pattern's input-node list; and all remaining commands appear unchanged in
their original relative order (the sequence is exactly the original filtered
by `clean_command`). -/
theorem C5_clean_pattern_shape (p : Pattern) :
    (∀ n d, Command.X n d ∉ (clean_pattern p).seq) ∧
    (∀ n d, Command.Z n d ∉ (clean_pattern p).seq) ∧
    (∀ n, Command.N n ∉ (clean_pattern p).seq) ∧
    (∀ n pl a sd td, Command.M n pl a sd td ∉ (clean_pattern p).seq) ∧
    (∀ n pl a sd td, Command.M n pl a sd td ∈ p.seq →
      Command.BaseM n ∈ (clean_pattern p).seq) ∧
    (clean_pattern p).seq = p.seq.filterMap clean_command ∧
    (clean_pattern p).input_nodes = p.input_nodes ++
      p.seq.filterMap (fun cmd =>
        match cmd with
        | Command.N node => some node
        | _ => none) := by
  have hseq : (clean_pattern p).seq = p.seq.filterMap clean_command :=
    clean_pattern_seq_eq p.seq
  have hmem : ∀ c2 ∈ (clean_pattern p).seq, ∃ c, c ∈ p.seq ∧ clean_command c = some c2 := by
    intro c2 hc2
    rw [hseq] at hc2
    exact List.mem_filterMap.mp hc2
  refine ⟨?_, ?_, ?_, ?_, ?_, hseq,
    congrArg (fun l => p.input_nodes ++ l) (clean_pattern_inputs_eq p.seq)⟩
  · intro n d hin
    obtain ⟨c, -, hc⟩ := hmem _ hin
    cases c <;> simp [clean_command] at hc
  · intro n d hin
    obtain ⟨c, -, hc⟩ := hmem _ hin
    cases c <;> simp [clean_command] at hc
  · intro n hin
    obtain ⟨c, -, hc⟩ := hmem _ hin
    cases c <;> simp [clean_command] at hc
  · intro n pl a sd td hin
    obtain ⟨c, -, hc⟩ := hmem _ hin
    cases c <;> simp [clean_command] at hc
  · intro n pl a sd td hin
    rw [hseq]
    exact List.mem_filterMap.mpr ⟨Command.M n pl a sd td, hin, rfl⟩

/-! ## Claim C3 -/

theorem find_map_overwrite (k v n : ℕ) (hkn : (k == n) = false) (d : PyDict) :
    (d.map (fun p => if p.1 == k then (k, v) else p)).find? (fun p => p.1 == n) =
      d.find? (fun p => p.1 == n) := by
  induction d with
  | nil => rfl
  | cons p rest ih =>
    by_cases hp : p.1 = k
    · have hp2 : ((p.1 == k) = true) := by simpa using hp
      have hpn : ((p.1 == n) = false) := by
        rw [show p.1 = k from hp]
        exact hkn
      rw [List.map_cons, if_pos hp2]
      simp only [List.find?]
      rw [show (((k, v).1 == n)) = false from hkn, hpn]
      exact ih
    · have hp2 : ¬((p.1 == k) = true) := by simpa using hp
      rw [List.map_cons, if_neg hp2]
      simp only [List.find?]
      rcases hb : (p.1 == n) with _ | _
      · exact ih
      · rfl

theorem find_append_ne (k v n : ℕ) (hkn : (k == n) = false) (d : PyDict) :
    (d ++ [(k, v)]).find? (fun p => p.1 == n) = d.find? (fun p => p.1 == n) := by
  induction d with
  | nil => simp [List.find?, hkn]
  | cons p rest ih =>
    rcases hb : (p.1 == n) with _ | _
    · simp only [List.cons_append, List.find?, hb]
      exact ih
    · simp only [List.cons_append, List.find?, hb]

theorem dictGetOpt_dictSet_ne (d : PyDict) (k v n : ℕ) (hnk : n ≠ k) :
    dictGetOpt (dictSet d k v) n = dictGetOpt d n := by
  have hkn : (k == n) = false := by simpa using fun h => hnk h.symm
  unfold dictSet dictGetOpt
  by_cases hany : d.any (fun p => p.1 == k)
  · rw [if_pos hany, find_map_overwrite k v n hkn d]
  · rw [if_neg hany, find_append_ne k v n hkn d]

theorem run_results_none (secret_r : PyDict) (writes : List (ℕ × ℕ)) :
    writes.foldl
      (fun acc w => acc.bind (fun d => set_measure_result secret_r d w.1 w.2))
      none = none := by
  induction writes with
  | nil => rfl
  | cons w rest ih => simpa using ih

theorem run_results_persist_aux (secret_r : PyDict) (writes : List (ℕ × ℕ)) :
    ∀ (d final : PyDict) (n : ℕ),
      writes.foldl
        (fun acc w => acc.bind (fun d2 => set_measure_result secret_r d2 w.1 w.2))
        (some d) = some final →
      n ∉ writes.map Prod.fst →
      dictGetOpt final n = dictGetOpt d n := by
  induction writes with
  | nil =>
    intro d final n h _
    cases h
    rfl
  | cons w rest ih =>
    intro d final n h hn
    have hn1 : n ≠ w.1 := by
      intro hcontra
      exact hn (by simp [hcontra])
    have hn2 : n ∉ rest.map Prod.fst := by
      intro hcontra
      exact hn (by simp [hcontra])
    rw [List.foldl_cons,
      show (some d).bind (fun d2 => set_measure_result secret_r d2 w.1 w.2) =
        set_measure_result secret_r d w.1 w.2 from rfl] at h
    cases hset : set_measure_result secret_r d w.1 w.2 with
    | none =>
      rw [hset] at h
      rw [run_results_none] at h
      cases h
    | some d2 =>
      rw [hset] at h
      have hlook := ih d2 final n h hn2
      rw [hlook]
      unfold set_measure_result at hset
      by_cases hemp : secret_r.isEmpty
      · rw [if_pos hemp] at hset
        cases hset
        exact dictGetOpt_dictSet_ne d w.1 w.2 n hn1
      · rw [if_neg hemp] at hset
        cases hval : dictGetOpt secret_r w.1 with
        | none => rw [hval] at hset; cases hset
        | some rv =>
          rw [hval] at hset
          have hset2 : dictSet d w.1 (w.2 ^^^ rv) = d2 := by simpa using hset
          rw [← hset2]
          exact dictGetOpt_dictSet_ne d w.1 (w.2 ^^^ rv) n hn1

/-- Counterexample to claim C3: neither delegation path resets
`Client.results`. A client whose store already holds the outcome `5 ↦ 1` from
a previous run starts the next run with that same non-empty store
(`results_at_run_start` is the store the simulator sees, client.py lines
278-317 perform no clearing operation), and after a run that measures only
node 0 the stale outcome of node 5 is still visible. -/
theorem C3_counterexample :
    results_at_run_start [(5, 1)] = [(5, 1)] ∧
    results_at_run_start [(5, 1)] ≠ [] ∧
    run_results [] [(5, 1)] [(0, 0)] = some [(5, 1), (0, 0)] ∧
    dictGetOpt [(5, 1), (0, 0)] 5 = some 1 := by
  refine ⟨rfl, ?_, by decide, by decide⟩
  intro h
  exact List.noConfusion h

/-- Claim C3 as amended: the ResultsStore is not reset by `delegate_pattern`
or `delegate_test_run`; a run folds its measurement writes into the client's
existing store, so the recorded outcome of every node the run does not
re-measure — in particular any outcome left over from a previous run — is
still visible afterwards. -/
theorem C3_results_persist (secret_r results : PyDict) (writes : List (ℕ × ℕ))
    (final : PyDict) (n : ℕ)
    (hrun : run_results secret_r results writes = some final)
    (hn : n ∉ writes.map Prod.fst) :
    dictGetOpt final n = dictGetOpt results n := by
  exact run_results_persist_aux secret_r writes results final n hrun hn

/-- Witness for C3 (amended): concrete persistence of a previous outcome. -/
theorem C3_witness :
    run_results [] [(7, 1)] [(1, 1)] = some [(7, 1), (1, 1)] ∧
    (7 : ℕ) ∉ ([(1, 1)] : List (ℕ × ℕ)).map Prod.fst ∧
    dictGetOpt [(7, 1), (1, 1)] 7 = dictGetOpt [(7, 1)] 7 :=
  ⟨by decide, by decide,
    C3_results_persist [] [(7, 1)] [(1, 1)] [(7, 1), (1, 1)] 7 (by decide) (by decide)⟩

/-! ## Claim C2 -/

theorem find_compat_none (l : List PauliString)
    (hinc : ∀ j, j < l.length → ∀ i, i < j →
      common_eigenstate (l.getD i default_pauli) (l.getD j default_pauli) = false) :
    ∀ i, find_compat l i = none := by
  intro i
  unfold find_compat
  rw [show ((List.range l.length).filter
      (fun j => decide (i < j) &&
        common_eigenstate (l.getD i default_pauli) (l.getD j default_pauli))) =
      [] from ?_]
  · rfl
  · rw [List.filter_eq_nil_iff]
    intro j hj
    have hjlen : j < l.length := List.mem_range.mp hj
    by_cases hij : i < j
    · rw [Bool.and_eq_true, not_and]
      intro _
      rw [hinc j hjlen i hij]
      exact Bool.false_ne_true
    · rw [Bool.and_eq_true, not_and]
      intro hd
      exact absurd (of_decide_eq_true hd) hij
  -- the filter is empty because every candidate pair is incompatible

theorem middle_loop_no_merge (l : List PauliString)
    (hfc : ∀ i, find_compat l i = none) :
    ∀ (fuel i : ℕ), l.length - 1 - i ≤ fuel →
      middle_loop fuel i false l = some (l, false) := by
  intro fuel
  induction fuel with
  | zero =>
    intro i hle
    have : ¬(i < l.length - 1) := by omega
    unfold middle_loop
    rw [if_neg this]
  | succ fuel ih =>
    intro i hle
    by_cases hi : i < l.length - 1
    · unfold middle_loop
      rw [if_pos hi, hfc i]
      exact ih (i + 1) (by omega)
    · unfold middle_loop
      rw [if_neg hi]

/-- Counterexample to claim C2: `merge_pauli_list` contains no raise
statement; on the two mutually incompatible single-qubit stabilizers `X` and
`Z` (more than one stabilizer remains throughout) it performs no merge, falls
out of its loops, and returns `pauli_list[0]` — a result, not an
`UnmergeableStabilizers` failure. -/
theorem C2_counterexample :
    common_eigenstate ⟨1, [PauliLetter.X]⟩ ⟨1, [PauliLetter.Z]⟩ = false ∧
    common_eigenstate ⟨1, [PauliLetter.Z]⟩ ⟨1, [PauliLetter.X]⟩ = false ∧
    ([(⟨1, [PauliLetter.X]⟩ : PauliString), ⟨1, [PauliLetter.Z]⟩]).length = 2 ∧
    merge_pauli_list [⟨1, [PauliLetter.X]⟩, ⟨1, [PauliLetter.Z]⟩] =
      some ⟨1, [PauliLetter.X]⟩ := by
  refine ⟨by decide, by decide, rfl, by decide⟩

/-- Claim C2 as amended: `merge_pauli_list` never signals an
`UnmergeableStabilizers` error (no such error exists in the code). When the
supplied stabilizers are pairwise mutually incompatible while more than one
remains, it does not fail: it silently returns the first stabilizer of the
list unchanged. (When a partial merge has happened and the remaining
stabilizers are incompatible, the source instead loops forever, again never
raising an error.) -/
theorem C2_merge_pauli_list_returns_first (l : List PauliString)
    (hlen : 1 < l.length)
    (hinc : ∀ j, j < l.length → ∀ i, i < j →
      common_eigenstate (l.getD i default_pauli) (l.getD j default_pauli) = false) :
    merge_pauli_list l = some (l.getD 0 default_pauli) := by
  have hfc := find_compat_none l hinc
  have hmid : middle_loop (middle_fuel l) 0 false l = some (l, false) := by
    apply middle_loop_no_merge l hfc (middle_fuel l) 0
    have h1 : l.length ≤ (l.length + 1) * (l.length + 1) := by nlinarith
    unfold middle_fuel
    omega
  unfold merge_pauli_list
  unfold outer_loop
  rw [hmid]
  show l.head? = some (l.getD 0 default_pauli)
  cases l with
  | nil => cases hlen
  | cons a rest => rfl

/-- Witness for C2 (amended): the theorem applied to the concrete
incompatible pair. -/
theorem C2_witness :
    (1 : ℕ) < ([(⟨1, [PauliLetter.X]⟩ : PauliString), ⟨1, [PauliLetter.Z]⟩]).length ∧
    merge_pauli_list [⟨1, [PauliLetter.X]⟩, ⟨1, [PauliLetter.Z]⟩] =
      some (([(⟨1, [PauliLetter.X]⟩ : PauliString),
        ⟨1, [PauliLetter.Z]⟩]).getD 0 default_pauli) :=
  ⟨by decide, C2_merge_pauli_list_returns_first
    [⟨1, [PauliLetter.X]⟩, ⟨1, [PauliLetter.Z]⟩] (by decide) (by decide)⟩

/-! ## Claims C7 and C1: the trap-coin invariant -/

/-- Nodes not in the trap-qubit list keep their coins through the
trap-qubit pass. -/
theorem gctq_preserve (nodes : List ℕ) (edges : List (ℕ × ℕ)) (tq : List ℕ) :
    ∀ (coins : ℕ → ℕ) (w : ℕ), w ∉ tq →
      generate_coins_trap_qubits nodes edges tq coins w = coins w := by
  induction tq with
  | nil => intro coins w _; rfl
  | cons v rest ih =>
    intro coins w hw
    have hwv : w ≠ v := fun h => hw (h ▸ List.mem_cons_self v rest)
    have hwr : w ∉ rest := fun h => hw (List.mem_cons_of_mem v h)
    unfold generate_coins_trap_qubits
    rw [List.foldl_cons]
    rw [show (rest.foldl
        (fun cs node => Function.update cs node (parity_of_neighbors nodes edges cs node))
        (Function.update coins v (parity_of_neighbors nodes edges coins v))) =
      generate_coins_trap_qubits nodes edges rest
        (Function.update coins v (parity_of_neighbors nodes edges coins v)) from rfl]
    rw [ih _ w hwr]
    exact Function.update_noteq hwv _ coins

/-- The neighbour-parity only depends on the coin values at the neighbours. -/
theorem parity_of_neighbors_congr (nodes : List ℕ) (edges : List (ℕ × ℕ))
    (c1 c2 : ℕ → ℕ) (v : ℕ)
    (h : ∀ u ∈ neighbors nodes edges v, c1 u = c2 u) :
    parity_of_neighbors nodes edges c1 v = parity_of_neighbors nodes edges c2 v := by
  unfold parity_of_neighbors
  rw [List.map_congr_left h]

/-- Core invariant of the trap-qubit pass: if the processed nodes all belong
to a set `F` that no neighbour of a processed node meets, then each processed
node ends with the parity of its neighbours' initial coins. -/
theorem gctq_value (nodes : List ℕ) (edges : List (ℕ × ℕ)) (F : List ℕ) :
    ∀ (tq : List ℕ) (coins : ℕ → ℕ), tq.Nodup →
      (∀ v ∈ tq, v ∈ F) →
      (∀ v ∈ tq, ∀ u ∈ neighbors nodes edges v, u ∉ F) →
      ∀ v ∈ tq, generate_coins_trap_qubits nodes edges tq coins v =
        parity_of_neighbors nodes edges coins v := by
  intro tq
  induction tq with
  | nil => intro coins _ _ _ v hv; cases hv
  | cons w rest ih =>
    intro coins hnd hF hnb v hv
    have hwF : w ∈ F := hF w (List.mem_cons_self w rest)
    unfold generate_coins_trap_qubits
    rw [List.foldl_cons]
    rw [show (rest.foldl
        (fun cs node => Function.update cs node (parity_of_neighbors nodes edges cs node))
        (Function.update coins w (parity_of_neighbors nodes edges coins w))) =
      generate_coins_trap_qubits nodes edges rest
        (Function.update coins w (parity_of_neighbors nodes edges coins w)) from rfl]
    rcases List.mem_cons.mp hv with hvw | hvr
    · subst hvw
      have hwrest : v ∉ rest := (List.nodup_cons.mp hnd).1
      rw [gctq_preserve nodes edges rest _ v hwrest]
      exact Function.update_same v _ coins
    · have h1 := ih (Function.update coins w (parity_of_neighbors nodes edges coins w))
        (List.nodup_cons.mp hnd).2
        (fun u hu => hF u (List.mem_cons_of_mem w hu))
        (fun u hu x hx => hnb u (List.mem_cons_of_mem w hu) x hx)
        v hvr
      rw [h1]
      apply parity_of_neighbors_congr
      intro u hu
      have huF : u ∉ F := hnb v hv u hu
      have huw : u ≠ w := fun h => huF (h ▸ hwF)
      exact Function.update_noteq huw _ coins

/-- The canvas coin of a node outside the trap-qubit list is its dummy draw. -/
theorem canvas_coins_dummy (nodes : List ℕ) (edges : List (ℕ × ℕ))
    (traps_list : List (List ℕ)) (rnd : ℕ → ℕ) (u : ℕ)
    (hu : u ∉ trap_qubits traps_list) :
    canvas_coins nodes edges traps_list rnd u = rnd u := by
  unfold canvas_coins
  rw [gctq_preserve nodes edges _ _ u hu]
  unfold generate_coins_dummies
  rw [if_neg hu]

/-- The canvas coin of a trap node is the parity of its neighbours' dummy
coins, provided trap nodes are distinct and no neighbour of a trap node is a
trap node. -/
theorem canvas_coins_trap (nodes : List ℕ) (edges : List (ℕ × ℕ))
    (traps_list : List (List ℕ)) (rnd : ℕ → ℕ)
    (hnd : (trap_qubits traps_list).Nodup)
    (havoid : ∀ v ∈ trap_qubits traps_list, ∀ u ∈ neighbors nodes edges v,
      u ∉ trap_qubits traps_list)
    (v : ℕ) (hv : v ∈ trap_qubits traps_list) :
    canvas_coins nodes edges traps_list rnd v =
      parity_of_neighbors nodes edges
        (generate_coins_dummies (trap_qubits traps_list) rnd) v := by
  unfold canvas_coins
  exact gctq_value nodes edges (trap_qubits traps_list) (trap_qubits traps_list)
    (generate_coins_dummies (trap_qubits traps_list) rnd) hnd (fun u hu => hu)
    havoid v hv

/-- Claim C7: for every TrappifiedCanvas built from traps that are pairwise
non-adjacent in the resource graph (as required within one canvas — the
hypothesis `hna` also rules out self-loops at trap nodes, which a simple
resource graph never has), and for every trap node of that canvas,
`coin(trap_node) XOR (XOR of the coins of the node's graph neighbours) = 0`
after construction, where each non-trap (dummy) node's coin is an
independently drawn bit (`rnd`, ranging over bits). -/
theorem C7_trap_coin_invariant (nodes : List ℕ) (edges : List (ℕ × ℕ))
    (traps_list : List (List ℕ)) (rnd : ℕ → ℕ)
    (hnd : (trap_qubits traps_list).Nodup)
    (hna : ∀ u ∈ trap_qubits traps_list, ∀ v ∈ trap_qubits traps_list,
      adjacent edges u v = false)
    (hbit : ∀ n, rnd n ≤ 1) :
    ∀ v ∈ trap_qubits traps_list,
      canvas_coins nodes edges traps_list rnd v ^^^
        xorFold (canvas_coins nodes edges traps_list rnd)
          (neighbors nodes edges v) = 0 := by
  intro v hv
  have havoid : ∀ w ∈ trap_qubits traps_list, ∀ u ∈ neighbors nodes edges w,
      u ∉ trap_qubits traps_list := by
    intro w hw u hu hutq
    have hadj : adjacent edges w u = true := (List.mem_filter.mp hu).2
    rw [hna w hw u hutq] at hadj
    exact Bool.noConfusion hadj
  have hvval := canvas_coins_trap nodes edges traps_list rnd hnd havoid v hv
  have hpres : ∀ u ∈ neighbors nodes edges v,
      canvas_coins nodes edges traps_list rnd u =
        generate_coins_dummies (trap_qubits traps_list) rnd u := by
    intro u hu
    have hutq : u ∉ trap_qubits traps_list := havoid v hv u hu
    rw [canvas_coins_dummy nodes edges traps_list rnd u hutq]
    unfold generate_coins_dummies
    rw [if_neg hutq]
  have hbits2 : ∀ u ∈ neighbors nodes edges v,
      canvas_coins nodes edges traps_list rnd u ≤ 1 := by
    intro u hu
    rw [canvas_coins_dummy nodes edges traps_list rnd u (havoid v hv u hu)]
    exact hbit u
  rw [xorFold_eq_sum_mod _ _ hbits2]
  rw [List.map_congr_left hpres]
  rw [hvval]
  unfold parity_of_neighbors
  exact Nat.xor_self _

/-- Witness for C7: a concrete one-trap canvas on the edge graph. -/
theorem C7_witness :
    (trap_qubits [[0]]).Nodup ∧
    (∀ n : ℕ, (fun _ : ℕ => 1) n ≤ 1) ∧
    ∀ v ∈ trap_qubits [[0]],
      canvas_coins [0, 1] [(0, 1)] [[0]] (fun _ => 1) v ^^^
        xorFold (canvas_coins [0, 1] [(0, 1)] [[0]] (fun _ => 1))
          (neighbors [0, 1] [(0, 1)] v) = 0 :=
  ⟨by decide, fun n => le_refl 1,
    C7_trap_coin_invariant [0, 1] [(0, 1)] [[0]] (fun _ => 1)
      (by decide) (by decide) (fun n => le_refl 1)⟩

theorem trap_qubits_singletons (l : List ℕ) :
    trap_qubits (l.map (fun v => [v])) = l := by
  induction l with
  | nil => rfl
  | cons x xs ih =>
    simp only [trap_qubits, List.map_cons, List.flatten_cons, List.singleton_append]
    simp only [trap_qubits] at ih
    rw [ih]

/-- Claim C1: for every honest, noiseless execution of `delegate_test_run` on
a canvas produced by `create_test_runs`, the returned list of trap outcomes —
one entry per trap in `canvas.traps_list`, each computed as the XOR (sum mod
2) of the recorded results over that trap's nodes — is all zeros. The canvas
of one color class consists of one single-qubit trap per node of that color
(`create_test_run_traps`); `coloring` is any proper coloring (the external
oracle's contract); `honest` is the spec-modelled honest noiseless executor
(`honest_test_run_results`). -/
theorem C1_test_run_trap_outcomes_zero (nodes : List ℕ) (edges : List (ℕ × ℕ))
    (coloring : ℕ → ℕ) (color : ℕ) (rnd results : ℕ → ℕ)
    (hnd : nodes.Nodup)
    (hproper : ∀ u v : ℕ, adjacent edges u v = true → coloring u ≠ coloring v)
    (honest : honest_test_run_results nodes edges
      (canvas_coins nodes edges (create_test_run_traps nodes coloring color) rnd)
      results (trap_qubits (create_test_run_traps nodes coloring color))) :
    ∀ x ∈ trap_outcomes results (create_test_run_traps nodes coloring color),
      x = 0 := by
  intro x hx
  have htq : trap_qubits (create_test_run_traps nodes coloring color) =
      nodes.filter (fun v => coloring v == color) := by
    unfold create_test_run_traps
    exact trap_qubits_singletons _
  have hcolor : ∀ u ∈ trap_qubits (create_test_run_traps nodes coloring color),
      coloring u = color := by
    intro u hu
    rw [htq] at hu
    have := (List.mem_filter.mp hu).2
    exact eq_of_beq this
  have hndT : (trap_qubits (create_test_run_traps nodes coloring color)).Nodup := by
    rw [htq]
    exact hnd.filter _
  have havoid : ∀ w ∈ trap_qubits (create_test_run_traps nodes coloring color),
      ∀ u ∈ neighbors nodes edges w,
        u ∉ trap_qubits (create_test_run_traps nodes coloring color) := by
    intro w hw u hu hutq
    have hadj : adjacent edges w u = true := (List.mem_filter.mp hu).2
    have hne := hproper w u hadj
    rw [hcolor w hw, hcolor u hutq] at hne
    exact hne rfl
  unfold trap_outcomes at hx
  rw [List.mem_map] at hx
  obtain ⟨trap, htrap, hxval⟩ := hx
  unfold create_test_run_traps at htrap
  rw [List.mem_map] at htrap
  obtain ⟨v, hvcn, rfl⟩ := htrap
  have hvT : v ∈ trap_qubits (create_test_run_traps nodes coloring color) := by
    rw [htq]
    exact hvcn
  have hresv := honest v hvT
  have hCv : canvas_coins nodes edges (create_test_run_traps nodes coloring color) rnd v =
      ((neighbors nodes edges v).map
        (canvas_coins nodes edges (create_test_run_traps nodes coloring color) rnd)).sum
        % 2 := by
    rw [canvas_coins_trap nodes edges _ rnd hndT havoid v hvT]
    unfold parity_of_neighbors
    congr 1
    congr 1
    apply List.map_congr_left
    intro u hu
    have hutq := havoid v hvT u hu
    rw [canvas_coins_dummy nodes edges _ rnd u hutq]
    unfold generate_coins_dummies
    rw [if_neg hutq]
  rw [← hxval]
  simp only [List.map_cons, List.map_nil, List.sum_cons, List.sum_nil, Nat.add_zero]
  rw [hresv]
  rw [hCv]
  omega

/-- Witness for C1: the 2-node, 1-edge graph of spec §8, color class 0 of the
identity coloring, honest results all zero. -/
theorem C1_witness :
    ([0, 1] : List ℕ).Nodup ∧
    honest_test_run_results [0, 1] [(0, 1)]
      (canvas_coins [0, 1] [(0, 1)]
        (create_test_run_traps [0, 1] (fun v => v) 0) (fun _ => 1))
      (fun _ => 0)
      (trap_qubits (create_test_run_traps [0, 1] (fun v => v) 0)) ∧
    ∀ x ∈ trap_outcomes (fun _ => 0)
      (create_test_run_traps [0, 1] (fun v => v) 0), x = 0 := by
  have hproper : ∀ u v : ℕ, adjacent [(0, 1)] u v = true →
      (fun v : ℕ => v) u ≠ (fun v : ℕ => v) v := by
    intro u v h
    have h2 := of_decide_eq_true h
    rcases h2 with h3 | h3
    · have h4 : (u, v) = (0, 1) := List.mem_singleton.mp h3
      have hu : u = 0 := congrArg Prod.fst h4
      have hv : v = 1 := congrArg Prod.snd h4
      rw [hu, hv]
      decide
    · have h4 : (v, u) = (0, 1) := List.mem_singleton.mp h3
      have hu : u = 1 := congrArg Prod.snd h4
      have hv : v = 0 := congrArg Prod.fst h4
      rw [hu, hv]
      decide
  have honest : honest_test_run_results [0, 1] [(0, 1)]
      (canvas_coins [0, 1] [(0, 1)]
        (create_test_run_traps [0, 1] (fun v => v) 0) (fun _ => 1))
      (fun _ => 0)
      (trap_qubits (create_test_run_traps [0, 1] (fun v => v) 0)) := by
    unfold honest_test_run_results
    decide
  exact ⟨by decide, honest,
    C1_test_run_trap_outcomes_zero [0, 1] [(0, 1)] (fun v => v) 0 (fun _ => 1)
      (fun _ => 0) (by decide) hproper honest⟩

end Veriphix
